import Mathlib

/-
Verification of the trajectory segmentation and interval algebra of
src/src/traffic/core/flight.py.

Embedding conventions:
- A DataFrame row is a `Row`: a timestamp (a rational number of seconds,
  so that pandas Timestamp arithmetic, including fractional ratios of
  durations, is exact) plus an opaque `payload` standing for all the other
  columns of the row.  All rows carry valid latitude/longitude data (the
  claims under study never involve null coordinates).
- A `Flight` wraps the ordered list of rows of its DataFrame.
- `pd.DataFrame.query` on a timestamp predicate is `List.filter`.
- Optional results (`Optional[Flight]`) are `Option Flight`; a raised
  exception is an `Except.error`.
- `pd.Timestamp`/`pd.Timedelta` parsing (`to_datetime`, `to_timedelta`,
  "10 min") happens at the boundary; gaps and durations enter the model
  already converted to rational seconds.
-/

namespace Traffic

/-- One row of the underlying DataFrame: its timestamp (rational seconds)
and an opaque payload standing for every other column. -/
structure Row where
  timestamp : ℚ
  payload : Nat
deriving DecidableEq

/-- A Flight wraps the ordered rows of its DataFrame
(`Flight.data` in flight.py). -/
structure Flight where
  data : List Row
deriving DecidableEq

/-- Binary minimum on ℚ, written out so that it evaluates by kernel
reduction. -/
def qmin (a b : ℚ) : ℚ := if a ≤ b then a else b

/-- Binary maximum on ℚ, written out so that it evaluates by kernel
reduction. -/
def qmax (a b : ℚ) : ℚ := if a ≤ b then b else a

/-- Minimum of a list of rationals (0 on the empty list, which models the
undefined `min` of an empty pandas column; every use below is guarded by
nonemptiness). -/
def minQ (l : List ℚ) : ℚ :=
  match l with
  | [] => 0
  | x :: xs => xs.foldl qmin x

/-- Maximum of a list of rationals (0 on the empty list). -/
def maxQ (l : List ℚ) : ℚ :=
  match l with
  | [] => 0
  | x :: xs => xs.foldl qmax x

lemma qmin_le_left (a b : ℚ) : qmin a b ≤ a := by
  unfold qmin; split
  · exact le_refl a
  · exact le_of_not_le (by assumption)

lemma qmin_le_right (a b : ℚ) : qmin a b ≤ b := by
  unfold qmin; split
  · assumption
  · exact le_refl b

lemma qmin_choice (a b : ℚ) : qmin a b = a ∨ qmin a b = b := by
  unfold qmin; split
  · exact Or.inl rfl
  · exact Or.inr rfl

lemma le_qmax_left (a b : ℚ) : a ≤ qmax a b := by
  unfold qmax; split
  · assumption
  · exact le_refl a

lemma le_qmax_right (a b : ℚ) : b ≤ qmax a b := by
  unfold qmax; split
  · exact le_refl b
  · exact le_of_not_le (by assumption)

lemma qmax_choice (a b : ℚ) : qmax a b = a ∨ qmax a b = b := by
  unfold qmax; split
  · exact Or.inr rfl
  · exact Or.inl rfl

/-- `Flight.start`: the minimum value of the timestamp column
(flight.py line 1019). -/
def Flight.start (f : Flight) : ℚ := minQ (f.data.map Row.timestamp)

/-- `Flight.stop`: the maximum value of the timestamp column
(flight.py line 1024). -/
def Flight.stop (f : Flight) : ℚ := maxQ (f.data.map Row.timestamp)

/-- `Flight.duration = stop - start` (flight.py line 1029). -/
def Flight.duration (f : Flight) : ℚ := f.stop - f.start

/-- The strict filter of `Flight.between`:
`self.data.query("@start < timestamp < @stop")` (flight.py line 1386). -/
def insideStrict (t1 t2 : ℚ) (r : Row) : Bool :=
  decide (t1 < r.timestamp) && decide (r.timestamp < t2)

/-- The inclusive filter of `Flight.between`:
`self.data.query("@start <= timestamp <= @stop")` (flight.py line 1388). -/
def insideLoose (t1 t2 : ℚ) (r : Row) : Bool :=
  decide (t1 ≤ r.timestamp) && decide (r.timestamp ≤ t2)

/-- The row selection made by `Flight.between` before the emptiness guard. -/
def betweenRows (f : Flight) (t1 t2 : ℚ) (strict : Bool) : List Row :=
  f.data.filter fun r =>
    if strict then insideStrict t1 t2 r else insideLoose t1 t2 r

/-- `Flight.between(start, stop, strict)` (flight.py lines 1359-1393):
filters the rows lying (strictly or inclusively) between the two bounds and
returns None when no row remains.  The None/NaT open-bound corner cases of
the Python code are outside this model: both bounds are always given. -/
def Flight.between (f : Flight) (t1 t2 : ℚ) (strict : Bool) : Option Flight :=
  if betweenRows f t1 t2 strict = [] then none
  else some ⟨betweenRows f t1 t2 strict⟩

/-- `Flight.before(time, strict)` delegates to `between` with the lower
bound fixed at the flight's own start (flight.py line 1343). -/
def Flight.before (f : Flight) (t : ℚ) (strict : Bool) : Option Flight :=
  f.between f.start t strict

/-- `Flight.after(time, strict)` delegates to `between` with the upper
bound fixed at the flight's own stop (flight.py line 1351). -/
def Flight.after (f : Flight) (t : ℚ) (strict : Bool) : Option Flight :=
  f.between t f.stop strict

/-- `Flight.skip(delta)` (flight.py lines 1257-1277): keeps the rows with
`timestamp >= start + delta`, None if empty. -/
def Flight.skip (f : Flight) (delta : ℚ) : Option Flight :=
  if f.data.filter (fun r => decide (f.start + delta ≤ r.timestamp)) = []
  then none
  else some ⟨f.data.filter fun r => decide (f.start + delta ≤ r.timestamp)⟩

/-- `Flight.first(delta)` (flight.py lines 1279-1298): keeps the rows with
`timestamp < start + delta`, None if empty. -/
def Flight.first (f : Flight) (delta : ℚ) : Option Flight :=
  if f.data.filter (fun r => decide (r.timestamp < f.start + delta)) = []
  then none
  else some ⟨f.data.filter fun r => decide (r.timestamp < f.start + delta)⟩

/-- `Flight.shorten(delta)` (flight.py lines 1300-1320): keeps the rows
with `timestamp <= stop - delta`, None if empty. -/
def Flight.shorten (f : Flight) (delta : ℚ) : Option Flight :=
  if f.data.filter (fun r => decide (r.timestamp ≤ f.stop - delta)) = []
  then none
  else some ⟨f.data.filter fun r => decide (r.timestamp ≤ f.stop - delta)⟩

/-- `Flight.last(delta)` (flight.py lines 1322-1341): keeps the rows with
`timestamp > stop - delta`, None if empty. -/
def Flight.last (f : Flight) (delta : ℚ) : Option Flight :=
  if f.data.filter (fun r => decide (f.stop - delta < r.timestamp)) = []
  then none
  else some ⟨f.data.filter fun r => decide (f.stop - delta < r.timestamp)⟩

/-- `Flight.at()` with no argument (flight.py line 1408): the last row of
the DataFrame after forward-filling; rows of the model have no missing
values so this is simply the last row by position. -/
def Flight.atLast (f : Flight) : Option Row := f.data.getLast?

/-- Rows carried by an optional Flight (None carries no row). -/
def rowsOf : Option Flight → List Row
  | none => []
  | some g => g.data

-- Elementary facts about minQ / maxQ and start / stop.

lemma foldl_min_le_init (xs : List ℚ) (a : ℚ) : xs.foldl qmin a ≤ a := by
  induction xs generalizing a with
  | nil => simp
  | cons x xs ih =>
    simp only [List.foldl_cons]
    exact le_trans (ih (qmin a x)) (qmin_le_left a x)

lemma foldl_min_le_mem {xs : List ℚ} {x : ℚ} (h : x ∈ xs) (a : ℚ) :
    xs.foldl qmin a ≤ x := by
  induction xs generalizing a with
  | nil => cases h
  | cons y ys ih =>
    simp only [List.foldl_cons]
    rcases List.mem_cons.mp h with h1 | h2
    · subst h1
      exact le_trans (foldl_min_le_init ys (qmin a x)) (qmin_le_right a x)
    · exact ih h2 (qmin a y)

lemma foldl_min_mem (xs : List ℚ) (a : ℚ) :
    xs.foldl qmin a = a ∨ xs.foldl qmin a ∈ xs := by
  induction xs generalizing a with
  | nil => left; rfl
  | cons x xs ih =>
    simp only [List.foldl_cons]
    rcases ih (qmin a x) with h | h
    · rw [h]
      rcases qmin_choice a x with h1 | h1
      · left; exact h1
      · right; rw [h1]; exact List.mem_cons_self x xs
    · right; exact List.mem_cons_of_mem x h

lemma init_le_foldl_max (xs : List ℚ) (a : ℚ) : a ≤ xs.foldl qmax a := by
  induction xs generalizing a with
  | nil => simp
  | cons x xs ih =>
    simp only [List.foldl_cons]
    exact le_trans (le_qmax_left a x) (ih (qmax a x))

lemma mem_le_foldl_max {xs : List ℚ} {x : ℚ} (h : x ∈ xs) (a : ℚ) :
    x ≤ xs.foldl qmax a := by
  induction xs generalizing a with
  | nil => cases h
  | cons y ys ih =>
    simp only [List.foldl_cons]
    rcases List.mem_cons.mp h with h1 | h2
    · subst h1
      exact le_trans (le_qmax_right a x) (init_le_foldl_max ys (qmax a x))
    · exact ih h2 (qmax a y)

lemma foldl_max_mem (xs : List ℚ) (a : ℚ) :
    xs.foldl qmax a = a ∨ xs.foldl qmax a ∈ xs := by
  induction xs generalizing a with
  | nil => left; rfl
  | cons x xs ih =>
    simp only [List.foldl_cons]
    rcases ih (qmax a x) with h | h
    · rw [h]
      rcases qmax_choice a x with h1 | h1
      · left; exact h1
      · right; rw [h1]; exact List.mem_cons_self x xs
    · right; exact List.mem_cons_of_mem x h

lemma minQ_le {l : List ℚ} {x : ℚ} (h : x ∈ l) : minQ l ≤ x := by
  cases l with
  | nil => cases h
  | cons y ys =>
    rcases List.mem_cons.mp h with h1 | h2
    · subst h1; exact foldl_min_le_init ys x
    · exact foldl_min_le_mem h2 y

lemma le_maxQ {l : List ℚ} {x : ℚ} (h : x ∈ l) : x ≤ maxQ l := by
  cases l with
  | nil => cases h
  | cons y ys =>
    rcases List.mem_cons.mp h with h1 | h2
    · subst h1; exact init_le_foldl_max ys x
    · exact mem_le_foldl_max h2 y

lemma minQ_mem {l : List ℚ} (h : l ≠ []) : minQ l ∈ l := by
  cases l with
  | nil => exact absurd rfl h
  | cons y ys =>
    rcases foldl_min_mem ys y with h1 | h1
    · rw [show minQ (y :: ys) = ys.foldl qmin y from rfl, h1]
      exact List.mem_cons_self y ys
    · exact List.mem_cons_of_mem y h1

lemma maxQ_mem {l : List ℚ} (h : l ≠ []) : maxQ l ∈ l := by
  cases l with
  | nil => exact absurd rfl h
  | cons y ys =>
    rcases foldl_max_mem ys y with h1 | h1
    · rw [show maxQ (y :: ys) = ys.foldl qmax y from rfl, h1]
      exact List.mem_cons_self y ys
    · exact List.mem_cons_of_mem y h1

lemma Flight.start_le {f : Flight} {r : Row} (h : r ∈ f.data) :
    f.start ≤ r.timestamp :=
  minQ_le (List.mem_map_of_mem Row.timestamp h)

lemma Flight.le_stop {f : Flight} {r : Row} (h : r ∈ f.data) :
    r.timestamp ≤ f.stop :=
  le_maxQ (List.mem_map_of_mem Row.timestamp h)

lemma Flight.exists_start {f : Flight} (h : f.data ≠ []) :
    ∃ r ∈ f.data, r.timestamp = f.start := by
  have hne : f.data.map Row.timestamp ≠ [] := by
    simpa using h
  have := minQ_mem hne
  rcases List.mem_map.mp this with ⟨r, hr, hts⟩
  exact ⟨r, hr, hts⟩

lemma Flight.exists_stop {f : Flight} (h : f.data ≠ []) :
    ∃ r ∈ f.data, r.timestamp = f.stop := by
  have hne : f.data.map Row.timestamp ≠ [] := by
    simpa using h
  have := maxQ_mem hne
  rcases List.mem_map.mp this with ⟨r, hr, hts⟩
  exact ⟨r, hr, hts⟩

lemma Flight.start_le_stop {f : Flight} (h : f.data ≠ []) :
    f.start ≤ f.stop := by
  rcases Flight.exists_start h with ⟨r, hr, hts⟩
  rw [← hts]
  exact Flight.le_stop hr

lemma rowsOf_between (f : Flight) (t1 t2 : ℚ) (strict : Bool) :
    rowsOf (f.between t1 t2 strict) = betweenRows f t1 t2 strict := by
  unfold Flight.between
  split
  · rename_i h
    rw [rowsOf, h]
  · rfl

-- A concrete flight with rows at 12:00:00, 12:00:05, 12:00:10
-- (timestamps in seconds elapsed since 12:00:00).

/-- A three-row flight with timestamps 12:00:00, 12:00:05, 12:00:10. -/
def exampleBoundary : Flight := ⟨[⟨0, 0⟩, ⟨5, 1⟩, ⟨10, 2⟩]⟩

/-- C1: for every Flight and timestamps t1 ≤ t2, `between(t1, t2, strict)`
keeps exactly the rows with t1 < timestamp < t2 (strict) or
t1 ≤ timestamp ≤ t2 (inclusive); on the 12:00:00/12:00:05/12:00:10 flight,
slicing between 12:00:00 and 12:00:10 keeps only the 12:00:05 row when
strict and all three rows otherwise. -/
theorem between_boundary_exactness :
    (∀ (f : Flight) (t1 t2 : ℚ), t1 ≤ t2 →
      rowsOf (f.between t1 t2 true) = f.data.filter (insideStrict t1 t2) ∧
      rowsOf (f.between t1 t2 false) = f.data.filter (insideLoose t1 t2)) ∧
    rowsOf (exampleBoundary.between 0 10 true) = [⟨5, 1⟩] ∧
    rowsOf (exampleBoundary.between 0 10 false) = exampleBoundary.data := by
  refine ⟨fun f t1 t2 _ => ⟨?_, ?_⟩, by decide, by decide⟩
  · rw [rowsOf_between]
    simp [betweenRows]
  · rw [rowsOf_between]
    simp [betweenRows]

/-- Witness for C1 at the concrete three-row flight. -/
theorem between_boundary_exactness_witness :
    rowsOf (exampleBoundary.between 0 10 true) =
      exampleBoundary.data.filter (insideStrict 0 10) ∧
    rowsOf (exampleBoundary.between 0 10 false) =
      exampleBoundary.data.filter (insideLoose 0 10) :=
  between_boundary_exactness.1 exampleBoundary 0 10 (by norm_num)

/-- C7: between, before, after, skip and shorten return the None sentinel
exactly when their row selection is empty, and otherwise a sub-flight
carrying that (nonempty) selection; the embedding is total, so no
exception is ever raised. -/
theorem slice_empty_sentinel :
    ∀ (f : Flight) (t1 t2 d : ℚ) (strict : Bool),
      ((f.between t1 t2 strict = none ↔ betweenRows f t1 t2 strict = []) ∧
        ∀ g, f.between t1 t2 strict = some g →
          g.data ≠ [] ∧ g.data = betweenRows f t1 t2 strict) ∧
      ((f.before t2 strict = none ↔ betweenRows f f.start t2 strict = []) ∧
        ∀ g, f.before t2 strict = some g → g.data ≠ []) ∧
      ((f.after t1 strict = none ↔ betweenRows f t1 f.stop strict = []) ∧
        ∀ g, f.after t1 strict = some g → g.data ≠ []) ∧
      ((f.skip d = none ↔
          f.data.filter (fun r => decide (f.start + d ≤ r.timestamp)) = []) ∧
        ∀ g, f.skip d = some g → g.data ≠ []) ∧
      ((f.shorten d = none ↔
          f.data.filter (fun r => decide (r.timestamp ≤ f.stop - d)) = []) ∧
        ∀ g, f.shorten d = some g → g.data ≠ []) := by
  have guard_none : ∀ l : List Row,
      ((if l = [] then none else some (⟨l⟩ : Flight)) = none ↔ l = []) := by
    intro l; split <;> simp_all
  have guard_some : ∀ (l : List Row) (g : Flight),
      (if l = [] then none else some (⟨l⟩ : Flight)) = some g →
        g.data ≠ [] ∧ g.data = l := by
    intro l g hg
    split at hg
    · cases hg
    · rename_i h
      cases hg
      exact ⟨h, rfl⟩
  intro f t1 t2 d strict
  refine ⟨⟨?_, ?_⟩, ⟨?_, ?_⟩, ⟨?_, ?_⟩, ⟨?_, ?_⟩, ⟨?_, ?_⟩⟩
  · exact guard_none _
  · exact fun g hg => guard_some _ g hg
  · exact guard_none _
  · exact fun g hg => (guard_some _ g hg).1
  · exact guard_none _
  · exact fun g hg => (guard_some _ g hg).1
  · exact guard_none _
  · exact fun g hg => (guard_some _ g hg).1
  · exact guard_none _
  · exact fun g hg => (guard_some _ g hg).1

/-- Witness for C7: on the example flight, an empty strict slice gives the
None sentinel, and a nonempty slice gives a flight with nonempty rows. -/
theorem slice_empty_sentinel_witness :
    exampleBoundary.between 5 5 true = none ∧
    (⟨[⟨0, 0⟩, ⟨5, 1⟩, ⟨10, 2⟩]⟩ : Flight).data ≠ [] :=
  ⟨((slice_empty_sentinel exampleBoundary 5 5 0 true).1.1).mpr (by decide),
    ((slice_empty_sentinel exampleBoundary 0 10 0 false).1.2
      ⟨[⟨0, 0⟩, ⟨5, 1⟩, ⟨10, 2⟩]⟩ (by decide)).1⟩

/-- C10: a strict `before` never keeps a row whose timestamp equals the
flight's own start, and a strict `after` never keeps a row whose timestamp
equals the flight's own stop, because both delegate to `between` with a
strict bound fixed at the flight's own start or stop. -/
theorem before_after_strict_bounds :
    ∀ (f : Flight) (t : ℚ),
      (∀ g, f.before t true = some g →
        ∀ r ∈ g.data, r.timestamp ≠ f.start) ∧
      (∀ g, f.after t true = some g →
        ∀ r ∈ g.data, r.timestamp ≠ f.stop) := by
  intro f t
  constructor
  · intro g hg r hr
    unfold Flight.before Flight.between at hg
    split at hg
    · cases hg
    · cases hg
      have := List.of_mem_filter hr
      simp only [if_pos rfl] at this
      have h1 : f.start < r.timestamp := by
        have := (Bool.and_eq_true _ _).mp this
        exact of_decide_eq_true this.1
      exact fun hc => absurd (hc ▸ h1) (lt_irrefl _)
  · intro g hg r hr
    unfold Flight.after Flight.between at hg
    split at hg
    · cases hg
    · cases hg
      have := List.of_mem_filter hr
      simp only [if_pos rfl] at this
      have h2 : r.timestamp < f.stop := by
        have := (Bool.and_eq_true _ _).mp this
        exact of_decide_eq_true this.2
      exact fun hc => absurd (hc ▸ h2) (lt_irrefl _)

/-- Witness for C10 at the concrete three-row flight. -/
theorem before_after_strict_bounds_witness :
    (⟨5, 1⟩ : Row).timestamp ≠ exampleBoundary.start :=
  (before_after_strict_bounds exampleBoundary 10).1
    ⟨[⟨5, 1⟩]⟩ (by decide) ⟨5, 1⟩ (by decide)

-- The gap-based splitting engine (`_split`, flight.py lines 109-129, and
-- `Flight.split`, lines 1471-1533).

/-- `data.timestamp.diff()` without its leading NaN: the list of
differences between consecutive timestamps. -/
def rowDiffs (l : List Row) : List ℚ :=
  List.zipWith (fun a b => b.timestamp - a.timestamp) l l.tail

/-- `_split(data, value, unit)` (flight.py lines 109-129), with the gap
already converted to rational seconds.  Fewer than 2 rows yield nothing;
otherwise the largest gap between consecutive timestamps is located
(`diff.argmax()`, first position at ties, which in the diff series is one
past its position in `rowDiffs`) and, when it exceeds the threshold, the
data is split there and both halves are split recursively.  The recursion
is driven by an explicit fuel; since every recursive call works on a
strictly shorter list, a fuel equal to the row count never runs out
(`splitDataFuel_congr` below). -/
def splitDataFuel : ℕ → ℚ → List Row → List (List Row)
  | 0, _, _ => []
  | fuel + 1, delta, l =>
    if l.length < 2 then []
    else
      let ds := rowDiffs l
      let m := maxQ ds
      if delta < m then
        let k := ds.findIdx (fun d => decide (m ≤ d)) + 1
        splitDataFuel fuel delta (l.take k) ++ splitDataFuel fuel delta (l.drop k)
      else [l]

/-- `_split` with the fuel fixed at the row count. -/
def splitData (delta : ℚ) (l : List Row) : List (List Row) :=
  splitDataFuel l.length delta l

/-- `Flight.split(value, unit)` without a condition (flight.py lines
1514-1516): each chunk of `_split` becomes a Flight. -/
def Flight.split (f : Flight) (delta : ℚ) : List Flight :=
  (splitData delta f.data).map Flight.mk

/-- The accumulator loop of `Flight.split` when a `condition` is supplied
(flight.py lines 1518-1533): adjacent chunks are merged instead of split
whenever the condition fails. -/
def splitCondLoop (cond : Flight → Flight → Bool) :
    Option Flight → List (List Row) → List Flight
  | none, [] => []
  | some p, [] => [p]
  | none, d :: rest => splitCondLoop cond (some ⟨d⟩) rest
  | some p, d :: rest =>
    if cond p ⟨d⟩ then p :: splitCondLoop cond (some ⟨d⟩) rest
    else splitCondLoop cond (some ⟨p.data ++ d⟩) rest

/-- `Flight.split(value, unit, condition)` with a condition. -/
def Flight.splitCond (f : Flight) (delta : ℚ) (cond : Flight → Flight → Bool) :
    List Flight :=
  splitCondLoop cond none (splitData delta f.data)

lemma rowDiffs_length (l : List Row) : (rowDiffs l).length = l.length - 1 := by
  cases l with
  | nil => rfl
  | cons x xs => simp [rowDiffs]

lemma rowDiffs_ne_nil {l : List Row} (h : 2 ≤ l.length) : rowDiffs l ≠ [] := by
  have := rowDiffs_length l
  intro hc
  rw [hc] at this
  simp at this
  omega

lemma argmax_lt_length {l : List Row} (h : 2 ≤ l.length) :
    (rowDiffs l).findIdx (fun d => decide (maxQ (rowDiffs l) ≤ d)) <
      (rowDiffs l).length :=
  List.findIdx_lt_length_of_exists
    ⟨maxQ (rowDiffs l), maxQ_mem (rowDiffs_ne_nil h), by simp⟩

lemma splitDataFuel_nil (fuel : ℕ) (delta : ℚ) {l : List Row}
    (h : l.length < 2) : splitDataFuel fuel delta l = [] := by
  cases fuel with
  | zero => rfl
  | succ n => simp [splitDataFuel, h]

lemma splitDataFuel_congr : ∀ (n m : ℕ) (delta : ℚ) (l : List Row),
    l.length ≤ n → l.length ≤ m →
    splitDataFuel n delta l = splitDataFuel m delta l := by
  intro n
  induction n with
  | zero =>
    intro m delta l hn _
    have : l.length < 2 := by omega
    rw [splitDataFuel_nil 0 delta this, splitDataFuel_nil m delta this]
  | succ n ih =>
    intro m delta l hn hm
    by_cases h2 : l.length < 2
    · rw [splitDataFuel_nil _ delta h2, splitDataFuel_nil m delta h2]
    · push_neg at h2
      cases m with
      | zero => omega
      | succ m' =>
        show splitDataFuel (n + 1) delta l = splitDataFuel (m' + 1) delta l
        rw [splitDataFuel, splitDataFuel]
        have hlt : ¬l.length < 2 := by omega
        simp only [hlt, if_false]
        have hk := argmax_lt_length h2
        rw [rowDiffs_length] at hk
        set k := (rowDiffs l).findIdx
          (fun d => decide (maxQ (rowDiffs l) ≤ d)) + 1 with hkdef
        have htake : (l.take k).length ≤ n := by
          rw [List.length_take]; omega
        have htake2 : (l.take k).length ≤ m' := by
          rw [List.length_take]; omega
        have hdrop : (l.drop k).length ≤ n := by
          rw [List.length_drop]; omega
        have hdrop2 : (l.drop k).length ≤ m' := by
          rw [List.length_drop]; omega
        rw [ih m' delta (l.take k) htake htake2,
          ih m' delta (l.drop k) hdrop hdrop2]

lemma flatten_splitDataFuel_sublist :
    ∀ (fuel : ℕ) (delta : ℚ) (l : List Row),
      List.Sublist (splitDataFuel fuel delta l).flatten l := by
  intro fuel
  induction fuel with
  | zero => intro delta l; exact List.nil_sublist l
  | succ n ih =>
    intro delta l
    rw [splitDataFuel]
    split
    · exact List.nil_sublist l
    · dsimp only
      split
      · rw [List.flatten_append]
        have h := List.Sublist.append
          (ih delta (l.take
            ((rowDiffs l).findIdx (fun d => decide (maxQ (rowDiffs l) ≤ d)) + 1)))
          (ih delta (l.drop
            ((rowDiffs l).findIdx (fun d => decide (maxQ (rowDiffs l) ≤ d)) + 1)))
        rw [List.take_append_drop] at h
        exact h
      · simp

lemma flatten_splitCondLoop (cond : Flight → Flight → Bool) :
    ∀ (segs : List (List Row)) (prev : Option Flight),
      ((splitCondLoop cond prev segs).map Flight.data).flatten =
        rowsOf prev ++ segs.flatten := by
  intro segs
  induction segs with
  | nil =>
    intro prev
    cases prev with
    | none => simp [splitCondLoop, rowsOf]
    | some p => simp [splitCondLoop, rowsOf]
  | cons d rest ih =>
    intro prev
    cases prev with
    | none => simp [splitCondLoop, rowsOf, ih]
    | some p =>
      rw [splitCondLoop]
      split
      · simp [rowsOf, ih, List.append_assoc]
      · simp [rowsOf, ih, List.append_assoc]

/-- The flight of the gap-split scenario: timestamps 12:00:00, 12:00:01,
12:00:02, 12:10:03, 12:10:04, in seconds elapsed since 12:00:00. -/
def exampleGapSplit : Flight :=
  ⟨[⟨0, 0⟩, ⟨1, 1⟩, ⟨2, 2⟩, ⟨603, 3⟩, ⟨604, 4⟩]⟩

unseal Rat.add Rat.sub Rat.mul Rat.inv in
/-- C2: on the flight with timestamps [12:00:00, 12:00:01, 12:00:02,
12:10:03, 12:10:04], `split("10 min")` (600 s threshold, the single jump
being 601 s) yields exactly 2 segments of sizes 3 and 2. -/
theorem split_gap_scenario :
    exampleGapSplit.split 600 =
      [⟨[⟨0, 0⟩, ⟨1, 1⟩, ⟨2, 2⟩]⟩, ⟨[⟨603, 3⟩, ⟨604, 4⟩]⟩] ∧
    (exampleGapSplit.split 600).map (fun g => g.data.length) = [3, 2] := by
  decide

lemma map_data_split (f : Flight) (delta : ℚ) :
    (f.split delta).map Flight.data = splitData delta f.data := by
  rw [Flight.split, List.map_map]
  exact List.map_id _

unseal Rat.add Rat.sub Rat.mul Rat.inv in
/-- C3 counterexample: a two-row flight whose single gap exceeds the
threshold.  `_split` then recurses into two one-row halves, and a chunk of
fewer than 2 rows yields nothing, so both rows are lost: concatenating the
yielded segments (there are none) does not reconstruct the flight. -/
theorem split_reconstruction_cex :
    ((⟨[⟨0, 0⟩, ⟨1200, 1⟩]⟩ : Flight).split 600) = [] ∧
    (((⟨[⟨0, 0⟩, ⟨1200, 1⟩]⟩ : Flight).split 600).map Flight.data).flatten ≠
      (⟨[⟨0, 0⟩, ⟨1200, 1⟩]⟩ : Flight).data := by
  decide

/-- C3 (amended): concatenating in order every segment of `split(g)` gives
a subsequence of the flight's rows — no row duplicated, no row invented,
order preserved — but rows can be lost when a recursion chunk has fewer
than 2 rows; a merge condition changes the segmentation, not the
concatenation; degenerate input (<2 rows) yields nothing; and when no gap
exceeds the threshold the single segment is the whole flight, so
reconstruction is exact. -/
theorem split_reconstruction_amended :
    (∀ (f : Flight) (delta : ℚ),
      List.Sublist ((f.split delta).map Flight.data).flatten f.data) ∧
    (∀ (f : Flight) (delta : ℚ) (cond : Flight → Flight → Bool),
      ((f.splitCond delta cond).map Flight.data).flatten =
        ((f.split delta).map Flight.data).flatten) ∧
    (∀ (f : Flight) (delta : ℚ), f.data.length < 2 → f.split delta = []) ∧
    (∀ (f : Flight) (delta : ℚ), 2 ≤ f.data.length →
      maxQ (rowDiffs f.data) ≤ delta → f.split delta = [f]) := by
  refine ⟨?_, ?_, ?_, ?_⟩
  · intro f delta
    rw [map_data_split]
    exact flatten_splitDataFuel_sublist _ delta f.data
  · intro f delta cond
    rw [map_data_split, Flight.splitCond,
      flatten_splitCondLoop cond (splitData delta f.data) none]
    rfl
  · intro f delta h
    rw [Flight.split, splitData, splitDataFuel_nil _ _ h]
    rfl
  · intro f delta h2 hle
    rw [Flight.split, splitData]
    obtain ⟨n, hn⟩ : ∃ n, f.data.length = n + 1 := ⟨f.data.length - 1, by omega⟩
    rw [hn, splitDataFuel]
    have hlt : ¬f.data.length < 2 := by omega
    rw [if_neg hlt]
    dsimp only
    rw [if_neg (not_lt.mpr hle)]
    rfl

unseal Rat.add Rat.sub Rat.mul Rat.inv in
/-- Witness for C3 (amended) at concrete flights: a one-row flight splits
into nothing, a gap-free two-row flight splits into itself. -/
theorem split_reconstruction_amended_witness :
    ((⟨[⟨0, 0⟩]⟩ : Flight).split 600 = []) ∧
    ((⟨[⟨0, 0⟩, ⟨1, 1⟩]⟩ : Flight).split 600 = [⟨[⟨0, 0⟩, ⟨1, 1⟩]⟩]) :=
  ⟨split_reconstruction_amended.2.2.1 ⟨[⟨0, 0⟩]⟩ 600 (by decide),
    split_reconstruction_amended.2.2.2 ⟨[⟨0, 0⟩, ⟨1, 1⟩]⟩ 600 (by decide)
      (by decide)⟩

-- Sliding windows (`Flight.sliding_windows`, flight.py lines 1438-1453).

lemma length_filter_lt {α : Type} {p : α → Bool} {l : List α} {x : α}
    (hx : x ∈ l) (hpx : p x = false) : (l.filter p).length < l.length := by
  induction l with
  | nil => cases hx
  | cons y ys ih =>
    rcases List.mem_cons.mp hx with h | h
    · subst h
      rw [List.filter_cons, if_neg (by simp [hpx])]
      exact Nat.lt_succ_of_le (List.length_filter_le p ys)
    · rw [List.filter_cons]
      split
      · simpa using Nat.succ_lt_succ (ih h)
      · exact Nat.lt_succ_of_lt (ih h)

lemma after_data_length {f a : Flight} {t : ℚ} (h : f.after t true = some a) :
    a.data.length < f.data.length := by
  unfold Flight.after Flight.between at h
  split at h
  · cases h
  · rename_i hne
    cases h
    have hfne : f.data ≠ [] := by
      intro hc
      apply hne
      unfold betweenRows
      rw [hc]
      rfl
    rcases Flight.exists_stop hfne with ⟨r, hr, hts⟩
    unfold betweenRows
    refine length_filter_lt hr ?_
    simp only [if_pos rfl, insideStrict, hts]
    simp

/-- `Flight.sliding_windows(duration, step)` (flight.py lines 1438-1453):
yields `first(duration)`, then recurses on `after(start + step)` (strict,
the default) until that is None.  The recursion is driven by an explicit
fuel; `after` always drops the row attaining the maximum timestamp, so a
fuel exceeding the row count never runs out
(`slidingWindowsFuel_congr` below). -/
def slidingWindowsFuel : ℕ → Flight → ℚ → ℚ → List Flight
  | 0, _, _, _ => []
  | fuel + 1, f, duration, step =>
    match f.first duration with
    | none => []
    | some w =>
      w ::
        match f.after (f.start + step) true with
        | none => []
        | some a => slidingWindowsFuel fuel a duration step

/-- `Flight.sliding_windows` with the fuel fixed above the row count. -/
def Flight.slidingWindows (f : Flight) (duration step : ℚ) : List Flight :=
  slidingWindowsFuel (f.data.length + 1) f duration step

lemma slidingWindowsFuel_congr : ∀ (n m : ℕ) (f : Flight) (d s : ℚ),
    f.data.length < n → f.data.length < m →
    slidingWindowsFuel n f d s = slidingWindowsFuel m f d s := by
  intro n
  induction n with
  | zero =>
    intro m f d s hn
    exact absurd hn (Nat.not_lt_zero _)
  | succ n ih =>
    intro m f d s hn hm
    cases m with
    | zero => exact absurd hm (Nat.not_lt_zero _)
    | succ m' =>
      show slidingWindowsFuel (n + 1) f d s = slidingWindowsFuel (m' + 1) f d s
      rw [slidingWindowsFuel, slidingWindowsFuel]
      cases hf : f.first d with
      | none => rfl
      | some w =>
        cases ha : f.after (f.start + s) true with
        | none => simp [ha]
        | some a =>
          have hlen := after_data_length ha
          simp only [ha]
          rw [ih m' a d s (by omega) (by omega)]

unseal Rat.add Rat.sub Rat.mul Rat.inv in
/-- C9 counterexample: on a flight sampled each second from 0 to 10 s,
`sliding_windows(7 s, 4 s)` yields a second window drawn from a remainder
spanning only 4 s (< 7 s), although the claim says windows stop once the
remainder is shorter than the duration; and `first(7 s)` on that short
remainder is not None, so the claimed termination condition never fires. -/
theorem sliding_windows_cex :
    (Flight.slidingWindows ⟨[⟨0, 0⟩, ⟨1, 1⟩, ⟨2, 2⟩, ⟨3, 3⟩, ⟨4, 4⟩, ⟨5, 5⟩,
        ⟨6, 6⟩, ⟨7, 7⟩, ⟨8, 8⟩, ⟨9, 9⟩, ⟨10, 10⟩]⟩ 7 4).map Flight.data =
      [[⟨0, 0⟩, ⟨1, 1⟩, ⟨2, 2⟩, ⟨3, 3⟩, ⟨4, 4⟩, ⟨5, 5⟩, ⟨6, 6⟩],
        [⟨5, 5⟩, ⟨6, 6⟩, ⟨7, 7⟩, ⟨8, 8⟩, ⟨9, 9⟩]] ∧
    Flight.duration ⟨[⟨5, 5⟩, ⟨6, 6⟩, ⟨7, 7⟩, ⟨8, 8⟩, ⟨9, 9⟩]⟩ < 7 ∧
    (⟨[⟨5, 5⟩, ⟨6, 6⟩, ⟨7, 7⟩, ⟨8, 8⟩, ⟨9, 9⟩]⟩ : Flight).first 7 ≠ none := by
  decide

/-- C9 (amended): `sliding_windows(d, s)` yields `first(d)` of the current
remainder and recurses on `after(start + s)` (strict at both bounds); the
recursion terminates exactly when that `after` is None, not when `first(d)`
is None — `first(d)` never returns None on a nonempty remainder with
positive duration, so trailing windows shorter than d are still yielded. -/
theorem sliding_windows_amended :
    (∀ (f : Flight) (d : ℚ), f.data ≠ [] → 0 < d → f.first d ≠ none) ∧
    (∀ (f : Flight) (d s : ℚ),
      f.slidingWindows d s =
        match f.first d with
        | none => []
        | some w =>
          w ::
            match f.after (f.start + s) true with
            | none => []
            | some a => a.slidingWindows d s) := by
  constructor
  · intro f d hne hd hc
    unfold Flight.first at hc
    split at hc
    · rename_i hfil
      rcases Flight.exists_start hne with ⟨r0, hr0, hts⟩
      have hmem : r0 ∈ f.data.filter
          (fun r => decide (r.timestamp < f.start + d)) := by
        refine List.mem_filter.mpr ⟨hr0, ?_⟩
        rw [hts]
        simp only [decide_eq_true_eq]
        linarith
      rw [hfil] at hmem
      cases hmem
    · cases hc
  · intro f d s
    show slidingWindowsFuel (f.data.length + 1) f d s = _
    rw [slidingWindowsFuel]
    cases hf : f.first d with
    | none => rfl
    | some w =>
      cases ha : f.after (f.start + s) true with
      | none => simp [ha]
      | some a =>
        have hlen := after_data_length ha
        simp only [ha]
        rw [slidingWindowsFuel_congr f.data.length (a.data.length + 1) a d s
          (by omega) (by omega)]
        rfl

/-- Witness for C9 (amended): `first(7 s)` is not None on the concrete
short remainder. -/
theorem sliding_windows_amended_witness :
    (⟨[⟨5, 5⟩, ⟨6, 6⟩, ⟨7, 7⟩, ⟨8, 8⟩, ⟨9, 9⟩]⟩ : Flight).first 7 ≠ none :=
  sliding_windows_amended.1 ⟨[⟨5, 5⟩, ⟨6, 6⟩, ⟨7, 7⟩, ⟨8, 8⟩, ⟨9, 9⟩]⟩ 7
    (by decide) (by decide)

/-- `Flight.at_ratio(ratio)` (flight.py lines 1418-1436): raises for a
ratio outside [0, 1]; otherwise takes the inclusive sub-flight up to
`start + ratio * duration`, asserts it is not None, and returns `at()` of
that sub-flight (its last row). -/
def Flight.atRatio (f : Flight) (ratio : ℚ) : Except String (Option Row) :=
  if ratio < 0 ∨ ratio > 1 then
    Except.error "ratio must be comprised between 0 and 1"
  else
    match f.between f.start (f.start + ratio * f.duration) false with
    | none => Except.error "assert subset is not None"
    | some subset => Except.ok subset.atLast

unseal Rat.add Rat.sub Rat.mul Rat.inv in
/-- C8: `at_ratio(r)` raises for every r < 0 or r > 1; for r in [0, 1] on
a nonempty flight it does not raise and returns `at()` of the inclusive
sub-flight up to `start + r * duration`; on the example flight,
`at_ratio(0)` is the first point and `at_ratio(1)` the last. -/
theorem atRatio_contract :
    (∀ (f : Flight) (r : ℚ), (r < 0 ∨ r > 1) →
      f.atRatio r = Except.error "ratio must be comprised between 0 and 1") ∧
    (∀ (f : Flight) (r : ℚ), 0 ≤ r → r ≤ 1 → f.data ≠ [] →
      ∃ sub, f.between f.start (f.start + r * f.duration) false = some sub ∧
        f.atRatio r = Except.ok sub.atLast) ∧
    exampleBoundary.atRatio 0 = Except.ok (some ⟨0, 0⟩) ∧
    exampleBoundary.atRatio 1 = Except.ok (some ⟨10, 2⟩) := by
  refine ⟨?_, ?_, by rfl, by rfl⟩
  · intro f r h
    unfold Flight.atRatio
    rw [if_pos h]
  · intro f r h0 h1 hne
    have hd : 0 ≤ f.duration := by
      have := Flight.start_le_stop hne
      unfold Flight.duration
      linarith
    have hbound : f.start ≤ f.start + r * f.duration := by
      have := mul_nonneg h0 hd
      linarith
    rcases Flight.exists_start hne with ⟨r0, hr0, hts⟩
    have hmem : r0 ∈ betweenRows f f.start (f.start + r * f.duration) false := by
      unfold betweenRows
      refine List.mem_filter.mpr ⟨hr0, ?_⟩
      simp only [Bool.false_eq_true, if_false, insideLoose, hts,
        Bool.and_eq_true, decide_eq_true_eq]
      exact ⟨le_refl _, hbound⟩
    have hne2 : betweenRows f f.start (f.start + r * f.duration) false ≠ [] := by
      intro hc
      rw [hc] at hmem
      cases hmem
    have hb : f.between f.start (f.start + r * f.duration) false =
        some ⟨betweenRows f f.start (f.start + r * f.duration) false⟩ := by
      unfold Flight.between
      rw [if_neg hne2]
    refine ⟨_, hb, ?_⟩
    unfold Flight.atRatio
    rw [if_neg ?ha, hb]
    push_neg
    exact ⟨h0, h1⟩

/-- Witness for C8: the error branch at ratio 2 and the regular branch at
ratio 1/2, on the example flight. -/
theorem atRatio_contract_witness :
    (exampleBoundary.atRatio 2 =
      Except.error "ratio must be comprised between 0 and 1") ∧
    (∃ sub, exampleBoundary.between exampleBoundary.start
        (exampleBoundary.start + (1 / 2) * exampleBoundary.duration) false =
          some sub ∧
      exampleBoundary.atRatio (1 / 2) = Except.ok sub.atLast) :=
  ⟨atRatio_contract.1 exampleBoundary 2 (Or.inr (by norm_num)),
    atRatio_contract.2.1 exampleBoundary (1 / 2) (by norm_num) (by norm_num)
      (by decide)⟩

-- The subtraction operator (`Flight.__sub__`, flight.py lines 332-366).
-- The Interval / IntervalCollection classes it relies on live in
-- src/traffic/core/intervals.py, which is not among the sources under
-- review; they are modelled from the spec (sections 3 and 4.1).

/-- Modelled from the spec: an Interval is a closed time range
[start, stop] (spec section 3), here with rational endpoints. -/
structure Interval where
  start : ℚ
  stop : ℚ
deriving DecidableEq

/-- Modelled from the spec: `Interval.difference(other)` (spec section
4.1, the class itself being absent from the sources under review): if
`other` fully covers `self`, returns empty; if `other` is disjoint
(boundary touching counts as disjoint, per the exclusive-boundary
convention of section 4.4), returns `self` unchanged; if `other` is
strictly inside `self`, returns the two fragments before and after; if
`other` overlaps one boundary, returns the single surviving fragment. -/
def Interval.diff (self other : Interval) : List Interval :=
  if other.start ≤ self.start ∧ self.stop ≤ other.stop then []
  else if other.stop ≤ self.start ∨ self.stop ≤ other.start then [self]
  else if self.start < other.start ∧ other.stop < self.stop then
    [⟨self.start, other.start⟩, ⟨other.stop, self.stop⟩]
  else if self.start < other.start then [⟨self.start, other.start⟩]
  else [⟨other.stop, self.stop⟩]

/-- `Flight.__sub__` for a Flight right operand (flight.py lines
332-366): the covering interval of `other` is subtracted from the
covering interval of `self` (`Interval.diff`, modelled from the spec),
and the surviving fragments are consumed through
`Flight.__getitem__` with an interval collection (flight.py lines
539-550), that is `between(interval.start, interval.stop, strict=False)`,
skipping every fragment whose row selection is empty. -/
def Flight.sub (f other : Flight) : List Flight :=
  ((Interval.mk f.start f.stop).diff ⟨other.start, other.stop⟩).filterMap
    fun i => f.between i.start i.stop false

/-- C4: when the subtracted segment lies strictly inside the flight's
time span and both surviving fragments keep at least one row, `T - S`
yields exactly two segments: the rows up to S's start and the rows from
S's stop on (boundaries included, per the inclusive convention of the
interval-collection indexer). -/
theorem sub_two_segments :
    ∀ (f o : Flight), o.data ≠ [] →
      f.start < o.start → o.stop < f.stop →
      betweenRows f f.start o.start false ≠ [] →
      betweenRows f o.stop f.stop false ≠ [] →
      f.sub o = [⟨betweenRows f f.start o.start false⟩,
        ⟨betweenRows f o.stop f.stop false⟩] := by
  intro f o hne h1 h2 hb1 hb2
  have ho : o.start ≤ o.stop := Flight.start_le_stop hne
  unfold Flight.sub Interval.diff
  rw [if_neg (fun hc => absurd h1 (not_lt.mpr hc.1))]
  rw [if_neg ?hdisj]
  case hdisj =>
    push_neg
    constructor
    · linarith
    · linarith
  rw [if_pos ⟨h1, h2⟩]
  have e1 : f.between f.start o.start false =
      some ⟨betweenRows f f.start o.start false⟩ := by
    unfold Flight.between
    rw [if_neg hb1]
  have e2 : f.between o.stop f.stop false =
      some ⟨betweenRows f o.stop f.stop false⟩ := by
    unfold Flight.between
    rw [if_neg hb2]
  simp [List.filterMap, e1, e2]

/-- Witness for C4 at the scenario of the claim: a flight spanning
[00:00, 01:00] sampled every 10 minutes minus a segment spanning
[00:20, 00:30] yields the two segments covering [00:00, 00:20] and
[00:30, 01:00] (timestamps in seconds). -/
theorem sub_two_segments_witness :
    Flight.sub
        ⟨[⟨0, 0⟩, ⟨600, 1⟩, ⟨1200, 2⟩, ⟨1800, 3⟩, ⟨2400, 4⟩, ⟨3000, 5⟩,
          ⟨3600, 6⟩]⟩
        ⟨[⟨1200, 100⟩, ⟨1800, 101⟩]⟩ =
      [⟨[⟨0, 0⟩, ⟨600, 1⟩, ⟨1200, 2⟩]⟩,
        ⟨[⟨1800, 3⟩, ⟨2400, 4⟩, ⟨3000, 5⟩, ⟨3600, 6⟩]⟩] :=
  (sub_two_segments
      ⟨[⟨0, 0⟩, ⟨600, 1⟩, ⟨1200, 2⟩, ⟨1800, 3⟩, ⟨2400, 4⟩, ⟨3000, 5⟩,
        ⟨3600, 6⟩]⟩
      ⟨[⟨1200, 100⟩, ⟨1800, 101⟩]⟩
      (by decide) (by decide) (by decide) (by decide) (by decide)).trans
    (by decide)

-- The geometric clipping engine (`Flight.clip_iterate`, flight.py lines
-- 3362-3419, and `Flight.clip`, lines 3421-3455).

/-- The value of `linestring.intersection(shape)` consumed by
`Flight.clip_iterate`.  The code only reads the time (z) coordinate of
each intersection piece, so a piece is kept as its list of recovered
times.  Shapely is an external collaborator: a shape disjoint from the
path gives `empty`, a degenerate touching gives `point`, a convex shape
containing the whole path gives `line` carrying every sample time of the
path, and a repeatedly-crossed boundary gives `multi`. -/
inductive ClipResult where
  | empty : ClipResult
  | point : ClipResult
  | line : List ℚ → ClipResult
  | multi : List (List ℚ) → ClipResult
deriving DecidableEq

/-- The `if between is not None: yield between` pattern of
`clip_iterate`. -/
def optToList : Option Flight → List Flight
  | none => []
  | some g => [g]

/-- The merge loop of `clip_iterate` (flight.py lines 3403-3419): windows
whose start does not exceed the previous window's end are merged;
otherwise the previous merged window is emitted. -/
def clipMergeLoop (f : Flight) (strict : Bool) :
    Option (ℚ × ℚ) → List (ℚ × ℚ) → List Flight
  | none, [] => []
  | some (a, b), [] => optToList (f.between a b strict)
  | none, w :: rest => clipMergeLoop f strict (some w) rest
  | some (a, b), (t1, t2) :: rest =>
    if b < t1 then
      optToList (f.between a b strict) ++
        clipMergeLoop f strict (some (t1, t2)) rest
    else clipMergeLoop f strict (some (qmin a t1, qmax b t2)) rest

/-- `Flight.clip_iterate(shape, strict=True)` (flight.py lines
3362-3419), given the shapely intersection of the flight's path with the
shape: fewer than 2 coordinates yield nothing; an empty or point
intersection yields nothing; a single line yields
`between(min(times), max(times), strict)` when nonempty; several pieces
are merged by time-window and each merged window is sliced out.  In the
model every row carries valid coordinates, so the path has one coordinate
per row. -/
def Flight.clipIterate (f : Flight) (inter : ClipResult) (strict : Bool) :
    List Flight :=
  if f.data.length < 2 then []
  else
    match inter with
    | ClipResult.empty => []
    | ClipResult.point => []
    | ClipResult.line times =>
      optToList (f.between (minQ times) (maxQ times) strict)
    | ClipResult.multi parts =>
      clipMergeLoop f strict none (parts.map fun p => (minQ p, maxQ p))

/-- `Flight.clip(shape, strict=True)` (flight.py lines 3421-3455): t1 is
the first `clip_iterate` segment's start, t2 the last segment's stop, and
the result is `between(t1, t2, strict)`, or None when there is no segment
or when the clipped flight's shape is None (fewer than 2 rows with
coordinates). -/
def Flight.clip (f : Flight) (inter : ClipResult) (strict : Bool) :
    Option Flight :=
  match f.clipIterate inter strict with
  | [] => none
  | s :: rest =>
    match f.between s.start (rest.getLastD s).stop strict with
    | none => none
    | some g => if g.data.length < 2 then none else some g

/-- C5 counterexample: on a 6-row flight whose path is entirely inside
the shape (the intersection is the whole path), `clip` with the default
strict=True applies a strict `between` twice and returns only the inner
rows at timestamps 2 and 3 — not a Trajectory equal to T. -/
theorem clip_containment_cex :
    Flight.clip ⟨[⟨0, 0⟩, ⟨1, 1⟩, ⟨2, 2⟩, ⟨3, 3⟩, ⟨4, 4⟩, ⟨5, 5⟩]⟩
        (ClipResult.line [0, 1, 2, 3, 4, 5]) true =
      some ⟨[⟨2, 2⟩, ⟨3, 3⟩]⟩ ∧
    Flight.clip ⟨[⟨0, 0⟩, ⟨1, 1⟩, ⟨2, 2⟩, ⟨3, 3⟩, ⟨4, 4⟩, ⟨5, 5⟩]⟩
        (ClipResult.line [0, 1, 2, 3, 4, 5]) true ≠
      some ⟨[⟨0, 0⟩, ⟨1, 1⟩, ⟨2, 2⟩, ⟨3, 3⟩, ⟨4, 4⟩, ⟨5, 5⟩]⟩ := by
  decide

/-- C5 (amended): when the shape fully contains the path (the
intersection is the whole path, carrying every sample time), `clip`
returns a Trajectory equal to T only with strict=False — the default
strict=True strips boundary rows (see the counterexample); and an empty
intersection (disjoint shape) always gives None. -/
theorem clip_containment_amended :
    (∀ f : Flight, 2 ≤ f.data.length →
      f.clip (ClipResult.line (f.data.map Row.timestamp)) false = some f) ∧
    (∀ (f : Flight) (strict : Bool), f.clip ClipResult.empty strict = none) := by
  constructor
  · intro f h2
    have hne : f.data ≠ [] := by
      intro hc
      rw [hc] at h2
      simp at h2
    have hall : betweenRows f f.start f.stop false = f.data := by
      unfold betweenRows
      apply List.filter_eq_self.mpr
      intro r hr
      simp only [Bool.false_eq_true, if_false, insideLoose, Bool.and_eq_true,
        decide_eq_true_eq]
      exact ⟨Flight.start_le hr, Flight.le_stop hr⟩
    have hbet : f.between f.start f.stop false = some ⟨f.data⟩ := by
      unfold Flight.between
      rw [hall, if_neg hne]
    have hiter : f.clipIterate (ClipResult.line (f.data.map Row.timestamp))
        false = [⟨f.data⟩] := by
      unfold Flight.clipIterate
      rw [if_neg (not_lt.mpr h2)]
      show optToList (f.between (minQ (f.data.map Row.timestamp))
        (maxQ (f.data.map Row.timestamp)) false) = _
      rw [show minQ (f.data.map Row.timestamp) = f.start from rfl,
        show maxQ (f.data.map Row.timestamp) = f.stop from rfl, hbet]
      rfl
    unfold Flight.clip
    rw [hiter]
    show (match f.between (Flight.mk f.data).start
        (List.getLastD [] (Flight.mk f.data)).stop false with
      | none => none
      | some g => if g.data.length < 2 then none else some g) = some f
    rw [show Flight.mk f.data = f from rfl]
    show (match f.between f.start f.stop false with
      | none => none
      | some g => if g.data.length < 2 then none else some g) = some f
    rw [hbet]
    show (if (Flight.mk f.data).data.length < 2 then none
      else some (Flight.mk f.data)) = some f
    rw [if_neg (not_lt.mpr h2)]
  · intro f strict
    have hiter : f.clipIterate ClipResult.empty strict = [] := by
      unfold Flight.clipIterate
      split <;> rfl
    unfold Flight.clip
    rw [hiter]

/-- Witness for C5 (amended): clipping the 6-row flight with strict=False
against the whole-path intersection gives back the flight itself. -/
theorem clip_containment_amended_witness :
    Flight.clip ⟨[⟨0, 0⟩, ⟨1, 1⟩, ⟨2, 2⟩, ⟨3, 3⟩, ⟨4, 4⟩, ⟨5, 5⟩]⟩
        (ClipResult.line
          ((⟨[⟨0, 0⟩, ⟨1, 1⟩, ⟨2, 2⟩, ⟨3, 3⟩, ⟨4, 4⟩, ⟨5, 5⟩]⟩ : Flight).data.map
            Row.timestamp)) false =
      some ⟨[⟨0, 0⟩, ⟨1, 1⟩, ⟨2, 2⟩, ⟨3, 3⟩, ⟨4, 4⟩, ⟨5, 5⟩]⟩ :=
  clip_containment_amended.1
    ⟨[⟨0, 0⟩, ⟨1, 1⟩, ⟨2, 2⟩, ⟨3, 3⟩, ⟨4, 4⟩, ⟨5, 5⟩]⟩ (by decide)

-- Count-based resampling (`Flight.resample` with an integer rule,
-- flight.py lines 1805-1816).

/-- Absolute value on ℚ, written out so that it evaluates by kernel
reduction. -/
def qabs (a : ℚ) : ℚ := if 0 ≤ a then a else -a

/-- Insertion step of the timestamp sort performed by
`handle_last_position` (flight.py line 1686). -/
def insertRow (r : Row) : List Row → List Row
  | [] => [r]
  | x :: xs =>
    if r.timestamp ≤ x.timestamp then r :: x :: xs else x :: insertRow r xs

/-- `data.sort_values("timestamp")`: insertion sort on timestamps.  With
the unique timestamps required by `reindex` the result does not depend on
the sorting algorithm. -/
def sortRows : List Row → List Row
  | [] => []
  | r :: rs => insertRow r (sortRows rs)

/-- `pd.date_range(start, stop, periods=n)`: n evenly spaced instants
from start to stop; n = 1 gives just the start.  The model keeps exact
rational instants where pandas rounds each to the nanosecond. -/
def dateRange (start stop : ℚ) (n : ℕ) : List ℚ :=
  (List.range n).map fun (i : ℕ) =>
    if n ≤ 1 then start else start + (i : ℚ) * (stop - start) / ((n : ℚ) - 1)

/-- `reindex(new_index, method="nearest")` for one target instant over an
ascending unique index: the row minimizing the timestamp distance, the
later row winning an exact tie (pandas keeps the right neighbour on ties
of a monotonically increasing index). -/
def nearestRow (rows : List Row) (t : ℚ) : Option Row :=
  rows.foldl
    (fun acc r =>
      match acc with
      | none => some r
      | some b =>
        if qabs (r.timestamp - t) ≤ qabs (b.timestamp - t) then some r
        else some b)
    none

/-- `Flight.resample(rule)` for an integer rule (flight.py lines
1805-1816): `handle_last_position` sorts by timestamp (no last_position
column in the model, flight.py line 1686), `unwrap` adds nothing here (no
angle feature column in the model, flight.py lines 2019-2047), then the
frame indexed by timestamp is reindexed onto
`pd.date_range(self.start, self.stop, periods=rule)` with
method="nearest" and the new index becomes the timestamp column.  pandas
`reindex` refuses a non-unique index, modelled by the error branch. -/
def Flight.resampleCount (f : Flight) (n : ℕ) : Except String Flight :=
  if ((sortRows f.data).map Row.timestamp).Nodup then
    Except.ok ⟨(dateRange f.start f.stop n).filterMap fun t =>
      (nearestRow (sortRows f.data) t).map fun r => (⟨t, r.payload⟩ : Row)⟩
  else Except.error "cannot reindex on an axis with duplicate labels"

lemma insertRow_perm (r : Row) (l : List Row) :
    List.Perm (insertRow r l) (r :: l) := by
  induction l with
  | nil => exact List.Perm.refl _
  | cons x xs ih =>
    unfold insertRow
    split
    · exact List.Perm.refl _
    · exact (List.Perm.cons x ih).trans (List.Perm.swap r x xs)

lemma sortRows_perm (l : List Row) : List.Perm (sortRows l) l := by
  induction l with
  | nil => exact List.Perm.refl _
  | cons r rs ih =>
    exact (insertRow_perm r (sortRows rs)).trans (List.Perm.cons r ih)

lemma nearestRow_some {rows : List Row} (h : rows ≠ []) (t : ℚ) :
    ∃ r0, nearestRow rows t = some r0 := by
  have step : ∀ (l : List Row) (b : Row),
      ∃ r0, l.foldl
        (fun acc r =>
          match acc with
          | none => some r
          | some b =>
            if qabs (r.timestamp - t) ≤ qabs (b.timestamp - t) then some r
            else some b)
        (some b) = some r0 := by
    intro l
    induction l with
    | nil => exact fun b => ⟨b, rfl⟩
    | cons x xs ih =>
      intro b
      simp only [List.foldl_cons]
      split
      · exact ih x
      · exact ih b
  cases rows with
  | nil => exact absurd rfl h
  | cons x xs =>
    unfold nearestRow
    simp only [List.foldl_cons]
    exact step xs x

lemma filterMap_nearest {sorted : List Row} (h : sorted ≠ []) :
    ∀ ts : List ℚ,
      ((ts.filterMap fun t => (nearestRow sorted t).map
          fun r => (⟨t, r.payload⟩ : Row)).map Row.timestamp = ts) ∧
      ((ts.filterMap fun t => (nearestRow sorted t).map
          fun r => (⟨t, r.payload⟩ : Row)).length = ts.length) ∧
      (∀ r ∈ ts.filterMap fun t => (nearestRow sorted t).map
          fun r => (⟨t, r.payload⟩ : Row),
        ∃ r0, nearestRow sorted r.timestamp = some r0 ∧
          r.payload = r0.payload) := by
  intro ts
  induction ts with
  | nil => exact ⟨rfl, rfl, by intro r hr; cases hr⟩
  | cons t ts ih =>
    rcases nearestRow_some h t with ⟨r0, hr0⟩
    have hmap : (nearestRow sorted t).map
        (fun r => (⟨t, r.payload⟩ : Row)) = some ⟨t, r0.payload⟩ := by
      rw [hr0]
      rfl
    rw [List.filterMap_cons, hmap]
    refine ⟨?_, ?_, ?_⟩
    · simp only [List.map_cons, ih.1]
    · simp only [List.length_cons, ih.2.1]
    · intro r hr
      rcases List.mem_cons.mp hr with h1 | h1
      · subst h1
        exact ⟨r0, hr0, rfl⟩
      · exact ih.2.2 r h1

lemma dateRange_length (start stop : ℚ) (n : ℕ) :
    (dateRange start stop n).length = n := by
  rw [dateRange, List.length_map, List.length_range]

lemma dateRange_getD {start stop : ℚ} {n i : ℕ} (hi : i < n) :
    (dateRange start stop n).getD i 0 =
      if n ≤ 1 then start else start + i * (stop - start) / ((n : ℚ) - 1) := by
  have hlen : i < (dateRange start stop n).length := by
    rw [dateRange_length]
    exact hi
  rw [List.getD_eq_getElem _ _ hlen]
  unfold dateRange
  simp only [List.getElem_map, List.getElem_range]

/-- C6 counterexample: a flight with 3 rows, two of them sharing the
timestamp 0, spanning a nonzero duration.  pandas `reindex` with
method="nearest" raises on the duplicated index, so `resample(2)` raises
instead of returning 2 rows. -/
theorem resample_count_cex :
    2 ≤ (⟨[⟨0, 0⟩, ⟨0, 1⟩, ⟨1, 2⟩]⟩ : Flight).data.length ∧
    (⟨[⟨0, 0⟩, ⟨0, 1⟩, ⟨1, 2⟩]⟩ : Flight).start ≠
      (⟨[⟨0, 0⟩, ⟨0, 1⟩, ⟨1, 2⟩]⟩ : Flight).stop ∧
    Flight.resampleCount ⟨[⟨0, 0⟩, ⟨0, 1⟩, ⟨1, 2⟩]⟩ 2 =
      Except.error "cannot reindex on an axis with duplicate labels" :=
  ⟨by decide, by decide, by rfl⟩

/-- C6 (amended): for every Flight with at least 2 rows, pairwise
distinct timestamps and a nonzero duration, and every positive N,
`resample(N)` returns exactly N rows whose timestamps are the N target
instants of `date_range(start, stop, N)` — evenly spaced, starting at
start, ending at stop when N ≥ 2 (N = 1 gives just [start]) — and every
row carries the payload of the nearest original sample, without
interpolation.  Duplicate timestamps make pandas reindex raise (see the
counterexample). -/
theorem resample_count_amended :
    ∀ (f : Flight) (n : ℕ), 2 ≤ f.data.length → f.start ≠ f.stop →
      (f.data.map Row.timestamp).Nodup → 0 < n →
      ∃ g, f.resampleCount n = Except.ok g ∧
        g.data.length = n ∧
        g.data.map Row.timestamp = dateRange f.start f.stop n ∧
        (g.data.map Row.timestamp).getD 0 0 = f.start ∧
        (2 ≤ n → (g.data.map Row.timestamp).getD (n - 1) 0 = f.stop) ∧
        (∀ i : ℕ, i + 1 < n →
          (g.data.map Row.timestamp).getD (i + 1) 0 -
            (g.data.map Row.timestamp).getD i 0 =
          (f.stop - f.start) / ((n : ℚ) - 1)) ∧
        (∀ r ∈ g.data, ∃ r0, nearestRow (sortRows f.data) r.timestamp =
          some r0 ∧ r.payload = r0.payload) := by
  intro f n h2 hss hnd hn
  have hperm : List.Perm ((sortRows f.data).map Row.timestamp)
      (f.data.map Row.timestamp) := (sortRows_perm f.data).map Row.timestamp
  have hnds : ((sortRows f.data).map Row.timestamp).Nodup :=
    hperm.nodup_iff.mpr hnd
  have hsne : sortRows f.data ≠ [] := by
    intro hc
    have := (sortRows_perm f.data).length_eq
    rw [hc] at this
    simp at this
    omega
  have hfm := filterMap_nearest hsne (dateRange f.start f.stop n)
  refine ⟨_, ?_, ?_, hfm.1, ?_, ?_, ?_, hfm.2.2⟩
  · unfold Flight.resampleCount
    rw [if_pos hnds]
  · rw [hfm.2.1]
    exact dateRange_length f.start f.stop n
  · rw [hfm.1, dateRange_getD hn]
    split
    · rfl
    · simp
  · intro hn2
    rw [hfm.1, dateRange_getD (by omega : n - 1 < n)]
    rw [if_neg (by omega)]
    have hcast : ((n - 1 : ℕ) : ℚ) = (n : ℚ) - 1 := by
      have : (1 : ℕ) ≤ n := by omega
      push_cast [Nat.cast_sub this]
      ring
    rw [hcast]
    have hne1 : (n : ℚ) - 1 ≠ 0 := by
      have : (2 : ℚ) ≤ (n : ℚ) := by exact_mod_cast hn2
      intro hc
      nlinarith
    field_simp
  · intro i hi
    rw [hfm.1, dateRange_getD (by omega : i + 1 < n),
      dateRange_getD (by omega : i < n)]
    rw [if_neg (by omega), if_neg (by omega)]
    have hne1 : (n : ℚ) - 1 ≠ 0 := by
      have : (2 : ℚ) ≤ (n : ℚ) := by exact_mod_cast (by omega : 2 ≤ n)
      intro hc
      nlinarith
    push_cast
    field_simp
    ring

/-- Witness for C6 (amended) on the three-row example flight resampled to
3 points. -/
theorem resample_count_amended_witness :
    ∃ g, exampleBoundary.resampleCount 3 = Except.ok g ∧
      g.data.length = 3 ∧
      g.data.map Row.timestamp = dateRange exampleBoundary.start
        exampleBoundary.stop 3 ∧
      (g.data.map Row.timestamp).getD 0 0 = exampleBoundary.start ∧
      (2 ≤ 3 → (g.data.map Row.timestamp).getD (3 - 1) 0 =
        exampleBoundary.stop) ∧
      (∀ i : ℕ, i + 1 < 3 →
        (g.data.map Row.timestamp).getD (i + 1) 0 -
          (g.data.map Row.timestamp).getD i 0 =
        (exampleBoundary.stop - exampleBoundary.start) / ((3 : ℚ) - 1)) ∧
      (∀ r ∈ g.data, ∃ r0, nearestRow (sortRows exampleBoundary.data)
        r.timestamp = some r0 ∧ r.payload = r0.payload) :=
  resample_count_amended exampleBoundary 3 (by decide) (by decide)
    (by decide) (by decide)

end Traffic
